import Mathlib

/-!
Shallow embedding of the core of the `argsearch` package
(`argsearch/ranges.py`, `argsearch/strategies.py`, `argsearch/commands.py`,
`argsearch/optimization.py`), together with proofs about the embedded
operations.

Modelling conventions:
* Python `str` is modelled as `List Char` (abbreviated `Str`).
* Python `float` values are modelled as exact rationals `ℚ`; the properties
  under study are exact arithmetic identities of the source expressions.
* Python `int(x)` applied to a float truncates toward zero (`pyInt`).
* Fallible operations return `Except` / `Option`.
-/

/-- Python strings, modelled as lists of characters. -/
abbrev Str := List Char

namespace Argsearch

/-- The characters Python `str.strip` (and `float`/`int` literal parsing)
treats as whitespace, restricted to ASCII. -/
def pyIsSpace (c : Char) : Bool :=
  c = ' ' || c = '\t' || c = '\n' || c = '\r' || c = '\x0b' || c = '\x0c'

/-- Leading-whitespace removal, as in Python `str.lstrip()`. -/
def dropLeadingWs (s : Str) : Str := s.dropWhile pyIsSpace

/-- Trailing-whitespace removal, as in Python `str.rstrip()`. -/
def dropTrailingWs (s : Str) : Str := (s.reverse.dropWhile pyIsSpace).reverse

/-- Python `str.strip()`. -/
def pyStrip (s : Str) : Str := dropTrailingWs (dropLeadingWs s)

/-- Python `str.split("\n")`: the list of newline-separated pieces, keeping
empty pieces; the result is never the empty list. -/
def splitNl : Str → List Str
  | [] => [[]]
  | c :: r =>
    if c = '\n' then [] :: splitNl r
    else
      match splitNl r with
      | [] => [[c]]
      | h :: t => (c :: h) :: t

/-- Numeric value of a decimal digit string (most significant first). -/
def digitsVal (ds : Str) : ℕ := ds.foldl (fun n c => 10 * n + (c.toNat - 48)) 0

/-- Model of Python `int(str)`: optional surrounding whitespace, optional
sign, then a nonempty run of decimal digits.  (`_` digit grouping, which the
source never relies on, is not modelled.) -/
def pyIntParse (s : Str) : Option ℤ :=
  let t := pyStrip s
  let signed : ℤ × Str :=
    match t with
    | '+' :: r => (1, r)
    | '-' :: r => (-1, r)
    | _ => (1, t)
  if signed.2 ≠ [] ∧ signed.2.all Char.isDigit then
    some (signed.1 * (digitsVal signed.2 : ℤ))
  else none

/-- Exponent suffix of a Python float literal: either nothing, or `e`/`E`
followed by an optional sign and a nonempty digit run. -/
def parseExpPart : Str → Option ℤ
  | [] => some 0
  | c :: r =>
    if c = 'e' ∨ c = 'E' then
      let signed : ℤ × Str :=
        match r with
        | '+' :: r2 => (1, r2)
        | '-' :: r2 => (-1, r2)
        | _ => (1, r)
      if signed.2 ≠ [] ∧ signed.2.all Char.isDigit then
        some (signed.1 * (digitsVal signed.2 : ℤ))
      else none
    else none

/-- Model of Python `float(str)` restricted to finite decimal literals:
optional surrounding whitespace, optional sign, digits with an optional
decimal point and an optional exponent.  (`inf`/`nan` literals and `_` digit
grouping, which the source never relies on, are not modelled; the value is
the exact rational the literal denotes.) -/
def pyFloatParse (s : Str) : Option ℚ :=
  let t := pyStrip s
  let signed : ℚ × Str :=
    match t with
    | '+' :: r => (1, r)
    | '-' :: r => (-1, r)
    | _ => (1, t)
  let ip := signed.2.takeWhile Char.isDigit
  let rest := signed.2.dropWhile Char.isDigit
  let fracd : Str × Str :=
    match rest with
    | '.' :: r => (r.takeWhile Char.isDigit, r.dropWhile Char.isDigit)
    | _ => ([], rest)
  if ip = [] ∧ fracd.1 = [] then none
  else
    match parseExpPart fracd.2 with
    | none => none
    | some e =>
      some (signed.1 * ((digitsVal ip : ℚ) + (digitsVal fracd.1 : ℚ) / 10 ^ fracd.1.length)
        * (10 : ℚ) ^ e)

/-- Python `int()` applied to a (modelled) float: truncation toward zero, as
in CPython and in numpy's float-to-int cast. -/
def pyInt (q : ℚ) : ℤ := if 0 ≤ q then ⌊q⌋ else ⌈q⌉

/-- Python `str()` of a natural number. -/
def natStr (n : ℕ) : Str := Nat.toDigits 10 n

/-- Python `str()` of an integer. -/
def intStr (n : ℤ) : Str := if n < 0 then '-' :: natStr n.natAbs else natStr n.toNat

/-! ## `argsearch/ranges.py` -/

/-- `ranges.IntRange`: state set by `__init__`, which normalizes the two
arguments into `min_value ≤ max_value`. -/
structure IntRange where
  min_value : ℤ
  max_value : ℤ
deriving DecidableEq

/-- `IntRange.__init__(a, b)`. -/
def IntRange.make (a b : ℤ) : IntRange := ⟨min a b, max a b⟩

/-- `np.linspace(a, b, num, dtype=int)` in exact arithmetic: `num` evenly
spaced points from `a` to `b` inclusive, each cast to int by truncation
toward zero.  `num = 1` yields `[a]`, `num = 0` yields `[]`. -/
def linspaceInt (a b : ℤ) (num : ℕ) : List ℤ :=
  if num ≤ 1 then (List.range num).map (fun _ => a)
  else (List.range num).map
    (fun i : ℕ => pyInt ((a : ℚ) + (i : ℚ) * ((b : ℚ) - (a : ℚ)) / ((num : ℚ) - 1)))

/-- `IntRange.grid` before the final `str` mapping: clamp `divisions` to the
number of integers in the range, then integer linspace. -/
def IntRange.grid_ints (r : IntRange) (divisions : ℕ) : List ℤ :=
  let divisions := min divisions (r.max_value - r.min_value + 1).toNat
  linspaceInt r.min_value r.max_value divisions

/-- `IntRange.grid`: `list(map(str, space))`. -/
def IntRange.grid (r : IntRange) (divisions : ℕ) : List Str :=
  (r.grid_ints divisions).map intStr

/-- `IntRange.transform_uniform_sample` before the final `str`:
`int(uniform_sample * (max + 1 - min) + min)`. -/
def IntRange.transform_uniform_sample_int (r : IntRange) (uniform_sample : ℚ) : ℤ :=
  let dynamic_range : ℚ := (r.max_value : ℚ) + 1 - (r.min_value : ℚ)
  let float_value : ℚ := uniform_sample * dynamic_range + (r.min_value : ℚ)
  pyInt float_value

/-- `IntRange.transform_uniform_sample`: `str(int(float_value))`. -/
def IntRange.transform_uniform_sample (r : IntRange) (uniform_sample : ℚ) : Str :=
  intStr (r.transform_uniform_sample_int uniform_sample)

/-- `ranges.LogIntRange`: state set by `__init__`, which normalizes the two
arguments into `min_value ≤ max_value` and then stores
`stats.loguniform(min_value, max_value)`.  scipy frozen distributions
validate their arguments lazily (at sampling time), so `__init__` performs no
positivity check and succeeds for arbitrary bounds; the bounds are the only
state relevant here. -/
structure LogIntRange where
  min_value : ℤ
  max_value : ℤ
deriving DecidableEq

/-- `LogIntRange.__init__(a, b)`. -/
def LogIntRange.make (a b : ℤ) : LogIntRange := ⟨min a b, max a b⟩

/-- `ranges.CategoricalRange`: holds the list of category strings. -/
structure CategoricalRange where
  categories : List Str
deriving DecidableEq

/-- `CategoricalRange.grid`: `return self.categories` — `divisions` is
ignored. -/
def CategoricalRange.grid (r : CategoricalRange) (_divisions : ℕ) : List Str :=
  r.categories

/-- The enumerated loop of `CategoricalRange.transform_uniform_sample`:
return the first category whose chunk `[i * chunk_size, (i+1) * chunk_size)`
contains the sample; `none` models falling off the loop into `assert False`. -/
def catChunkLoop (chunk_size uniform_sample : ℚ) : ℕ → List Str → Option Str
  | _, [] => none
  | i, category :: rest =>
    if (i : ℚ) * chunk_size ≤ uniform_sample ∧ uniform_sample < ((i : ℚ) + 1) * chunk_size
    then some category
    else catChunkLoop chunk_size uniform_sample (i + 1) rest

/-- `CategoricalRange.transform_uniform_sample`.  (With an empty category
list the source raises `ZeroDivisionError`; the claims under study assume a
nonempty list.) -/
def CategoricalRange.transform_uniform_sample (r : CategoricalRange) (uniform_sample : ℚ) :
    Option Str :=
  let chunk_size : ℚ := 1 / (r.categories.length : ℚ)
  catChunkLoop chunk_size uniform_sample 0 r.categories

/-- Result of `ranges.cast_range_argument`: an `int`, a `float`, or the raw
string. -/
inductive RangeArg where
  | int (n : ℤ)
  | float (q : ℚ)
  | str (s : Str)
deriving DecidableEq

/-- `ranges.cast_range_argument`: try `int(arg)`, then `float(arg)`, else
return the raw string. -/
def cast_range_argument (arg : Str) : RangeArg :=
  match pyIntParse arg with
  | some n => .int n
  | none =>
    match pyFloatParse arg with
    | some q => .float q
    | none => .str arg

/-- `isinstance(·, numbers.Number)` on a cast result. -/
def RangeArg.isNumber : RangeArg → Bool
  | .int _ => true
  | .float _ => true
  | .str _ => false

/-- Numeric value of a cast result (unused for non-numbers). -/
def RangeArg.toQ : RangeArg → ℚ
  | .int n => (n : ℚ)
  | .float q => q
  | .str _ => 0

/-- The `Range` object `ranges.TemplateRange.__call__` stores on the argparse
namespace.  Float variants keep their normalized rational bounds. -/
inductive BuiltRange where
  | intR (r : IntRange)
  | floatR (min_value max_value : ℚ)
  | logIntR (r : LogIntRange)
  | logFloatR (min_value max_value : ℚ)
  | catR (r : CategoricalRange)
deriving DecidableEq

/-- `ranges.TemplateRange.__call__` on the token list of one range
specification: which `Range` object gets constructed, or the
`argparse.ArgumentTypeError` raised for fewer than two tokens.  Control flow
mirrors the source: the two-token numeric cases and the `LOG` three-token
numeric cases `return` early, and everything else falls through to
`CategoricalRange(values)`. -/
def templateRangeCall (values : List Str) : Except Str BuiltRange :=
  if values.length < 2 then
    .error ("A template range requires 2 or more values.".toList)
  else
    let two : Option BuiltRange :=
      if values.length = 2 then
        match cast_range_argument (values.getD 0 []), cast_range_argument (values.getD 1 []) with
        | .int a, .int b => some (.intR (IntRange.make a b))
        | f, s =>
          if f.isNumber ∧ s.isNumber
          then some (.floatR (min f.toQ s.toQ) (max f.toQ s.toQ))
          else none
      else none
    match two with
    | some r => .ok r
    | none =>
      let three : Option BuiltRange :=
        if values.length = 3 ∧ values.getD 0 [] = "LOG".toList then
          match cast_range_argument (values.getD 1 []), cast_range_argument (values.getD 2 []) with
          | .int a, .int b => some (.logIntR (LogIntRange.make a b))
          | f, s =>
            if f.isNumber ∧ s.isNumber
            then some (.logFloatR (min f.toQ s.toQ) (max f.toQ s.toQ))
            else none
        else none
      match three with
      | some r => .ok r
      | none => .ok (.catR ⟨values⟩)

/-! ## `argsearch/strategies.py` and `argsearch/commands.py` -/

/-- Fuel-indexed core of Python `str.replace`: scan left to right; at each
position, if the (nonempty) pattern matches, emit the replacement and resume
after the matched text — the replacement itself is not rescanned.  The fuel
only makes the recursion structural; `pyReplace` supplies enough of it. -/
def pyReplaceFuel : ℕ → Str → Str → Str → Str
  | 0, _, _, _ => []
  | _ + 1, [], _, _ => []
  | fuel + 1, c :: rest, pat, repl =>
    if pat ≠ [] ∧ pat.isPrefixOf (c :: rest) then
      repl ++ pyReplaceFuel fuel (rest.drop (pat.length - 1)) pat repl
    else
      c :: pyReplaceFuel fuel rest pat repl

/-- Python `s.replace(pat, repl)` for nonempty `pat` (the source only ever
replaces a brace-wrapped, hence nonempty, pattern). -/
def pyReplace (s pat repl : Str) : Str := pyReplaceFuel (s.length + 1) s pat repl

/-- The brace-wrapped pattern `"{" + template + "}"`. -/
def wrapBraces (template : Str) : Str := '{' :: (template ++ ['}'])

/-- `strategies.apply_substitutions` (the identical function also appears as
`commands.apply_substitutions`): for each mapping entry in order, replace
every occurrence of the brace-wrapped name in the command built so far. -/
def apply_substitutions (command : Str) (substitutions : List (Str × Str)) : Str :=
  substitutions.foldl (fun cmd kv => pyReplace cmd (wrapBraces kv.1) kv.2) command

/-- `itertools.product` on a list of axes: the first factor is the outermost
loop, so the last factor varies fastest. -/
def itProduct {α : Type} : List (List α) → List (List α)
  | [] => [[]]
  | g :: gs => g.flatMap (fun v => (itProduct gs).map (fun c => v :: c))

/-- The `Range` objects handed to `strategies.grid`, restricted to the
variants whose `grid` output is exactly representable (integer and
categorical); the float variants' grids go through IEEE arithmetic and are
not needed by the properties under study. -/
inductive GridRange where
  | intR (r : IntRange)
  | catR (r : CategoricalRange)
deriving DecidableEq

/-- Dispatch of `rng.grid(divisions)`. -/
def GridRange.grid : GridRange → ℕ → List Str
  | .intR r, d => r.grid d
  | .catR r, d => r.grid d

/-- The per-range grids of `strategies.grid`:
`grids = [rng.grid(divisions) for rng in template_ranges]`. -/
def grid_axes (range_map : List (Str × GridRange)) (divisions : ℕ) : List (List Str) :=
  range_map.map (fun p => p.2.grid divisions)

/-- The substitution mappings `strategies.grid` builds: one per element of
`itertools.product` over the per-range grids, each zipped with the template
names.  (The source unpacks `range_map.items()` with `zip(*...)`, which
raises on an empty mapping; claims about `grid` assume at least one
template.) -/
def grid_substitutions (range_map : List (Str × GridRange)) (divisions : ℕ) :
    List (List (Str × Str)) :=
  let template_names := range_map.map Prod.fst
  (itProduct (grid_axes range_map divisions)).map
    (fun combination => template_names.zip combination)

/-- `strategies.grid`: one command string per grid combination, in product
order. -/
def grid_strategy (templated_string : Str) (range_map : List (Str × GridRange))
    (divisions : ℕ) : List Str :=
  (grid_substitutions range_map divisions).map
    (fun substitutions => apply_substitutions templated_string substitutions)

/-- Mixed-radix rank of a list of (index, size) pairs, most significant
axis first: the position that product order — the last axis varying
fastest — assigns to that index combination. -/
def mixedRank : List (ℕ × ℕ) → ℕ
  | [] => 0
  | (i, _) :: rest => i * (rest.map Prod.snd).prod + mixedRank rest

/-- Pointwise selection of one element per axis (the default `d` is never
used at valid indices). -/
def pointwiseSelect {α : Type} (d : α) (gs : List (List α)) (idxs : List ℕ) : List α :=
  (gs.zip idxs).map (fun p => p.1.getD p.2 d)

/-! ## `argsearch/optimization.py` -/

/-- The `ValueError` message of `optimization.get_command_output`, quoting
the offending line. -/
def objectiveErrMsg (line : Str) : Str :=
  ("Command".toList ++ ['\''] ++ "s last line of output must be a single number. Got: ".toList)
    ++ line ++ ['.']

/-- `optimization.get_command_output`: split the stripped stdout on newlines
and parse the final line as a float; on failure the raised `ValueError`
quotes that line. -/
def get_command_output (output : Str) : Except Str ℚ :=
  let lines := splitNl (pyStrip output)
  let last := lines.getLastD []
  match pyFloatParse last with
  | some q => .ok q
  | none => .error (objectiveErrMsg last)

/-- The best-objective bookkeeping of `optimization.optimize_command`. -/
structure OptTrack where
  best_objective : Option ℚ
  best_setting : Option (List (Str × Str))
  steps_since_improvement : ℕ

/-- One completed evaluation — the raw objective parsed by
`get_command_output` plus the substitutions that produced it — folded into
the tracking state, exactly as in the loop body: under `maximize` the
objective is first negated (`objective *= -1`); the best is replaced when it
is `None` or strictly greater than the new objective. -/
def optStep (maximize : Bool) (st : OptTrack) (result : ℚ × List (Str × Str)) : OptTrack :=
  let objective : ℚ := if maximize then -result.1 else result.1
  match st.best_objective with
  | none => ⟨some objective, some result.2, 0⟩
  | some best =>
    if best > objective then ⟨some objective, some result.2, 0⟩
    else ⟨st.best_objective, st.best_setting, st.steps_since_improvement + 1⟩

/-- The `objective_values` handed to `optimizer.tell` for a batch of raw
objectives: each negated under `maximize`. -/
def toldObjectives (maximize : Bool) (raws : List ℚ) : List ℚ :=
  raws.map (fun r => if maximize then -r else r)

/-- The tracking state after all completed evaluations. -/
def finalTrack (maximize : Bool) (results : List (ℚ × List (Str × Str))) : OptTrack :=
  results.foldl (optStep maximize) ⟨none, none, 0⟩

/-- The final `best_objective` the driver prints: the tracked best, negated
back under `maximize` (`best_objective *= -1`).  (With zero completed
evaluations the source would crash negating `None`; the claims under study
concern nonempty runs.) -/
def reported_best (maximize : Bool) (results : List (ℚ × List (Str × Str))) : Option ℚ :=
  let final := (finalTrack maximize results).best_objective
  if maximize then final.map (fun b => -b) else final

/-! ## Command templates as chunks

To state which parts of a template substitution leaves intact, a template is
decomposed into literal text and brace-delimited placeholders.  `render`
recovers the raw command string. -/

/-- One piece of a command template. -/
inductive Chunk where
  | lit (text : Str)
  | ph (name : Str)
deriving DecidableEq

/-- The raw text of one chunk. -/
def renderChunk : Chunk → Str
  | .lit t => t
  | .ph n => wrapBraces n

/-- The raw command string of a chunk decomposition. -/
def render (chunks : List Chunk) : Str := (chunks.map renderChunk).flatten

/-- No brace characters occur in `s`. -/
def braceFree (s : Str) : Bool := s.all (fun c => !(c = '{') && !(c = '}'))

/-- The text of one chunk is brace-free (for a placeholder, its name). -/
def chunkTokensOK : Chunk → Bool
  | .lit t => braceFree t
  | .ph n => braceFree n

/-- Well-formed decomposition: literal text and placeholder names are
brace-free (placeholder names are word tokens in the source's syntax). -/
def chunksWF (chunks : List Chunk) : Bool :=
  chunks.all chunkTokensOK

/-- All keys and values of a substitution mapping are brace-free. -/
def subsBraceFree (subs : List (Str × Str)) : Bool :=
  subs.all (fun kv => braceFree kv.1 && braceFree kv.2)

/-- Replacement of one key on the chunk level. -/
def replaceChunk (k v : Str) : Chunk → Chunk
  | .lit t => .lit t
  | .ph n => if n = k then .lit v else .ph n

/-- Effect of a whole substitution mapping on the chunk level: a placeholder
whose name is mapped becomes its (first) value as literal text; everything
else is untouched. -/
def substChunk (subs : List (Str × Str)) : Chunk → Chunk
  | .lit t => .lit t
  | .ph n =>
    match subs.lookup n with
    | some v => .lit v
    | none => .ph n

/-! ## Claim theorems: concrete evaluations -/

/-- C9: for every `CategoricalRange(cats)` and every `divisions`, `grid`
returns the category list unchanged, regardless of how `divisions` compares
to the number of categories. -/
theorem C9_grid_returns_categories (cats : List Str) (d : ℕ) :
    (CategoricalRange.mk cats).grid d = cats := rfl

/-- C2 (failing input): on `IntRange(-5, 5)` with `u = 3/10`, the source
computes `str(int(0.3 * 11 + (-5))) = str(int(-1.7)) = "-1"` — Python `int`
truncates toward zero — while the claimed formula
`floor(u * (max - min + 1)) + min` yields `-2`. -/
theorem C2_truncation_differs_from_floor :
    (IntRange.make (-5) 5).transform_uniform_sample (3/10) = "-1".toList
    ∧ intStr (⌊(3/10 : ℚ) * ((5 : ℚ) - (-5) + 1)⌋ + (-5)) = "-2".toList
    ∧ ("-1".toList : Str) ≠ "-2".toList := by
  refine ⟨?_, ?_, by decide⟩
  · have h : (IntRange.make (-5) 5).transform_uniform_sample_int (3/10) = -1 := by
      simp only [IntRange.make, IntRange.transform_uniform_sample_int, pyInt]
      norm_num
      rw [Int.ceil_eq_iff]
      norm_num
    simp only [IntRange.transform_uniform_sample, h]
    rfl
  · have h : ⌊(3/10 : ℚ) * ((5 : ℚ) - (-5) + 1)⌋ + (-5) = (-2 : ℤ) := by norm_num
    rw [h]
    rfl

/-- C3 (failing input): on `CategoricalRange(["a", "b"])`, the boundary
sample `u = 1` satisfies no chunk test (`1 < (i+1) * chunk_size` fails for
the last chunk), so the loop falls through to `assert False` — there is no
clamping of the final index — while just below the boundary a category is
still returned. -/
theorem C3_boundary_hits_assert_false :
    (CategoricalRange.mk ["a".toList, "b".toList]).transform_uniform_sample 1 = none
    ∧ (CategoricalRange.mk ["a".toList, "b".toList]).transform_uniform_sample (1/2)
      = some "b".toList := by
  constructor
  · simp only [CategoricalRange.transform_uniform_sample, catChunkLoop]
    norm_num
  · simp only [CategoricalRange.transform_uniform_sample, catChunkLoop]
    norm_num

/-- C7 (failing input): the three-token specification `LOG 0 10` is not
rejected — `TemplateRange.__call__` builds `LogIntRange(0, 10)` without any
positivity check (scipy's frozen distribution validates lazily, at sampling
time), so a log range with a non-positive bound is constructed. -/
theorem C7_log_range_with_nonpositive_bound_is_built :
    templateRangeCall ["LOG".toList, "0".toList, "10".toList]
      = .ok (.logIntR (LogIntRange.mk 0 10))
    ∧ (LogIntRange.mk 0 10).min_value ≤ 0 := ⟨rfl, by decide⟩

/-- C1 (counterexample): substitutions are applied sequentially by
whole-string replacement, so the value `"{b}"` substituted for `a` IS
rescanned by the later substitution of `b` in the same call: the result is
`"X"`, not the literal `"{b}"` the claim requires. -/
theorem C1_counterexample :
    apply_substitutions "{a}".toList [("a".toList, "{b}".toList), ("b".toList, "X".toList)]
      = "X".toList
    ∧ ("X".toList : Str) ≠ "{b}".toList := by decide

/-- C6 (counterexample): for `IntRange(1, 3)` with `divisions = 1`,
`np.linspace(1, 3, num=1)` is `[1]`, so `grid(1) = ["1"]` and the last
element is `"1"`, not `"3" = str(b)` as the claim requires for every
`d ≥ 1`. -/
theorem C6_counterexample :
    (IntRange.make 1 3).grid 1 = ["1".toList]
    ∧ ("1".toList : Str) ≠ "3".toList := ⟨rfl, by decide⟩

/-- C10 (counterexample): with the mapping `a ↦ "{"`, `b ↦ "Z"` on the
template `"{a}b}"` — whose only placeholder is `{a}`, the trailing `"b}"`
being non-placeholder text — the first replacement creates a new `{b}`
occurrence spanning the substituted value and the template text, and the
second replacement then consumes it: the non-placeholder text `"b}"` does
not appear in the output `"Z"`. -/
theorem C10_counterexample :
    apply_substitutions ['{', 'a', '}', 'b', '}'] [(['a'], ['{']), (['b'], ['Z'])] = ['Z']
    ∧ 'b' ∉ apply_substitutions ['{', 'a', '}', 'b', '}'] [(['a'], ['{']), (['b'], ['Z'])] := by
  decide

/-! ## Supporting lemmas: the optimization tracking fold -/

theorem foldl_min_le_init (l : List ℚ) (b : ℚ) : l.foldl min b ≤ b := by
  induction l generalizing b with
  | nil => exact le_refl b
  | cons x xs ih => exact le_trans (ih (min b x)) (min_le_left b x)

theorem foldl_min_mem (l : List ℚ) (b : ℚ) : l.foldl min b = b ∨ l.foldl min b ∈ l := by
  induction l generalizing b with
  | nil => exact Or.inl rfl
  | cons x xs ih =>
    rcases ih (min b x) with h | h
    · rcases min_choice b x with hm | hm
      · exact Or.inl (by rw [List.foldl_cons, h, hm])
      · exact Or.inr (by rw [List.foldl_cons, h, hm]; exact List.mem_cons_self x xs)
    · exact Or.inr (List.mem_cons_of_mem x h)

theorem foldl_min_le_mem (l : List ℚ) (b : ℚ) : ∀ x ∈ l, l.foldl min b ≤ x := by
  induction l generalizing b with
  | nil => intro x hx; exact absurd hx (List.not_mem_nil x)
  | cons y ys ih =>
    intro x hx
    rcases List.mem_cons.mp hx with h | h
    · subst h
      exact le_trans (foldl_min_le_init ys (min b x)) (min_le_right b x)
    · exact ih (min b y) x h

/-- Once the tracked best is `some b`, folding further completed evaluations
under `maximize` keeps the minimum of `b` and the negated raw objectives. -/
theorem foldl_optStep_some (l : List (ℚ × List (Str × Str))) (b : ℚ)
    (s0 : Option (List (Str × Str))) (n0 : ℕ) :
    (l.foldl (optStep true) ⟨some b, s0, n0⟩).best_objective
      = some ((l.map (fun r => -r.1)).foldl min b) := by
  induction l generalizing b s0 n0 with
  | nil => rfl
  | cons r rest ih =>
    simp only [List.foldl_cons, List.map_cons]
    by_cases h : b > -r.1
    · have hstep : optStep true ⟨some b, s0, n0⟩ r = ⟨some (-r.1), some r.2, 0⟩ := by
        simp [optStep, h]
      rw [hstep, ih, min_eq_right (le_of_lt h)]
    · have hstep : optStep true ⟨some b, s0, n0⟩ r = ⟨some b, s0, n0 + 1⟩ := by
        simp [optStep, h]
      rw [hstep, ih, min_eq_left (not_lt.mp h)]

/-- C5: under `maximize`, every observed raw objective is negated before the
surrogate model's `tell`, the tracked best is the minimum of those negated
values, and the reported best value is the negation of that tracked best —
hence the maximum raw objective observed.  The raw sequence `1, 5, 3`
reports `5`. -/
theorem C5_maximize_reports_max_raw (results : List (ℚ × List (Str × Str)))
    (h : results ≠ []) :
    toldObjectives true (results.map Prod.fst)
      = (results.map Prod.fst).map (fun r => -r)
    ∧ (∃ m : ℚ,
        reported_best true results = some m
        ∧ (finalTrack true results).best_objective = some (-m)
        ∧ m ∈ results.map Prod.fst
        ∧ ∀ r ∈ results.map Prod.fst, r ≤ m)
    ∧ reported_best true [((1 : ℚ), []), (5, []), (3, [])] = some 5 := by
  refine ⟨by simp [toldObjectives], ?_, by rfl⟩
  match results, h with
  | r :: rest, _ =>
    have hfirst : optStep true ⟨none, none, 0⟩ r = ⟨some (-r.1), some r.2, 0⟩ := by
      simp [optStep]
    have hbest : (finalTrack true (r :: rest)).best_objective
        = some ((rest.map (fun x => -x.1)).foldl min (-r.1)) := by
      simp only [finalTrack, List.foldl_cons, hfirst]
      exact foldl_optStep_some rest (-r.1) (some r.2) 0
    set M : ℚ := (rest.map (fun x => -x.1)).foldl min (-r.1) with hM
    refine ⟨-M, ?_, ?_, ?_, ?_⟩
    · simp only [reported_best, hbest]
      rfl
    · rw [hbest, neg_neg]
    · rcases foldl_min_mem (rest.map (fun x => -x.1)) (-r.1) with hm | hm
      · rw [← hM] at hm
        rw [hm, neg_neg]
        exact List.mem_map_of_mem Prod.fst (List.mem_cons_self r rest)
      · rw [← hM] at hm
        rcases List.mem_map.mp hm with ⟨x, hx, hxe⟩
        have : -M = x.1 := by rw [← hxe, neg_neg]
        rw [this]
        exact List.mem_map_of_mem Prod.fst (List.mem_cons_of_mem r hx)
    · intro raw hraw
      rcases List.mem_map.mp hraw with ⟨x, hx, hxe⟩
      rcases List.mem_cons.mp hx with hh | hh
      · have : M ≤ -raw := by
          rw [← hxe, hh]
          exact foldl_min_le_init _ _
        exact le_neg_of_le_neg this
      · have hmem : -raw ∈ rest.map (fun y => -y.1) := by
          rw [← hxe]
          exact List.mem_map_of_mem (fun y => -y.1) hh
        exact le_neg_of_le_neg (foldl_min_le_mem _ _ _ hmem)

/-- Witness for C5 at the spec's scenario: raw objectives `1, 5, 3` under
`maximize` report a final best of `5`. -/
theorem C5_witness :
    reported_best true [((1 : ℚ), []), (5, []), (3, [])] = some 5 :=
  (C5_maximize_reports_max_raw [((1 : ℚ), []), (5, []), (3, [])]
    (by simp)).2.2

/-! ## Supporting lemmas: `itertools.product` -/

theorem itProduct_length {α : Type} (gs : List (List α)) :
    (itProduct gs).length = (gs.map List.length).prod := by
  induction gs with
  | nil => rfl
  | cons g gs ih =>
    simp only [itProduct, List.length_flatMap, List.map_cons, List.prod_cons]
    have hmap : List.map (List.length ∘ fun v => (itProduct gs).map (fun c => v :: c)) g
        = List.replicate g.length (itProduct gs).length := by
      simp [Function.comp_def]
    rw [hmap, List.sum_const_nat, ih]

theorem itProduct_mem_length {α : Type} (gs : List (List α)) (x : List α)
    (hx : x ∈ itProduct gs) : x.length = gs.length := by
  induction gs generalizing x with
  | nil =>
    simp only [itProduct, List.mem_singleton] at hx
    simp [hx]
  | cons g gs ih =>
    simp only [itProduct, List.mem_flatMap, List.mem_map] at hx
    obtain ⟨v, _, c, hc, rfl⟩ := hx
    simp [ih c hc]

theorem mixedRank_lt {ps : List (ℕ × ℕ)} (h : ∀ p ∈ ps, p.1 < p.2) :
    mixedRank ps < (ps.map Prod.snd).prod := by
  induction ps with
  | nil => simp [mixedRank]
  | cons p rest ih =>
    obtain ⟨pi, pn⟩ := p
    have hrest := ih (fun q hq => h q (List.mem_cons_of_mem _ hq))
    have hp : pi < pn := h (pi, pn) (List.mem_cons_self _ _)
    simp only [mixedRank, List.map_cons, List.prod_cons]
    calc pi * (rest.map Prod.snd).prod + mixedRank rest
        < pi * (rest.map Prod.snd).prod + (rest.map Prod.snd).prod := by omega
      _ = (pi + 1) * (rest.map Prod.snd).prod := by ring
      _ ≤ pn * (rest.map Prod.snd).prod :=
        Nat.mul_le_mul_right _ (Nat.succ_le_of_lt hp)

/-- Indexing into a concatenation of equally sized blocks. -/
theorem flatMap_getElem?_blocks {α β : Type} (F : α → List β) (P : ℕ)
    (hP : ∀ v, (F v).length = P) :
    ∀ (g : List α) (i k : ℕ) (v : α), g[i]? = some v → k < P →
    (g.flatMap F)[i * P + k]? = (F v)[k]? := by
  intro g
  induction g with
  | nil =>
    intro i k v hv _
    simp at hv
  | cons w g ih =>
    intro i k v hv hk
    cases i with
    | zero =>
      have hwv : w = v := by simpa using hv
      subst hwv
      rw [List.flatMap_cons, List.getElem?_append_left (by rw [hP w]; simpa using hk)]
      simp
    | succ i =>
      have hge : (F w).length ≤ (i + 1) * P + k := by
        rw [hP w]
        calc P ≤ (i + 1) * P := Nat.le_mul_of_pos_left P (Nat.succ_pos i)
          _ ≤ (i + 1) * P + k := Nat.le_add_right _ _
      rw [List.flatMap_cons, List.getElem?_append_right hge]
      have hidx : (i + 1) * P + k - (F w).length = i * P + k := by
        rw [hP w]
        have : (i + 1) * P = i * P + P := by ring
        omega
      rw [hidx]
      exact ih i k v (by simpa using hv) hk

/-- `itertools.product` places the combination selected by a valid index
vector at its mixed-radix rank: the first axis is most significant, the last
axis varies fastest. -/
theorem itProduct_getElem? {α : Type} (d : α) :
    ∀ (gs : List (List α)) (idxs : List ℕ),
    idxs.length = gs.length →
    (∀ p ∈ idxs.zip (gs.map List.length), p.1 < p.2) →
    (itProduct gs)[mixedRank (idxs.zip (gs.map List.length))]?
      = some (pointwiseSelect d gs idxs) := by
  intro gs
  induction gs with
  | nil =>
    intro idxs hlen _
    have hnil : idxs = [] := by simpa using hlen
    subst hnil
    rfl
  | cons g gs ih =>
    intro idxs hlen hvalid
    match idxs, hlen, hvalid with
    | i :: is, hlen, hvalid =>
      have hlen' : is.length = gs.length := by simpa using hlen
      have hsnd : (is.zip (gs.map List.length)).map Prod.snd = gs.map List.length :=
        List.map_snd_zip is (gs.map List.length) (by simp [hlen'])
      have hzip : (i :: is).zip ((g :: gs).map List.length)
          = (i, g.length) :: is.zip (gs.map List.length) := rfl
      have hvhead : i < g.length :=
        hvalid (i, g.length) (by rw [hzip]; exact List.mem_cons_self _ _)
      have hvtail : ∀ p ∈ is.zip (gs.map List.length), p.1 < p.2 := by
        intro p hp
        exact hvalid p (by rw [hzip]; exact List.mem_cons_of_mem _ hp)
      have hrank : mixedRank ((i :: is).zip ((g :: gs).map List.length))
          = i * (itProduct gs).length + mixedRank (is.zip (gs.map List.length)) := by
        rw [hzip]
        show i * ((is.zip (gs.map List.length)).map Prod.snd).prod
            + mixedRank (is.zip (gs.map List.length)) = _
        rw [hsnd, itProduct_length]
      have hklt : mixedRank (is.zip (gs.map List.length)) < (itProduct gs).length := by
        have h1 := mixedRank_lt hvtail
        rw [hsnd] at h1
        rw [itProduct_length]
        exact h1
      have hblocklen : ∀ v : α, ((itProduct gs).map (fun c => v :: c)).length
          = (itProduct gs).length := by
        intro v
        simp
      have hv : g[i]? = some (g.get ⟨i, hvhead⟩) := by
        rw [List.getElem?_eq_getElem hvhead, List.get_eq_getElem]
      show (g.flatMap (fun v => (itProduct gs).map (fun c => v :: c)))[mixedRank
          ((i :: is).zip ((g :: gs).map List.length))]? = _
      rw [hrank]
      rw [flatMap_getElem?_blocks (fun v => (itProduct gs).map (fun c => v :: c))
        (itProduct gs).length hblocklen g i _ (g.get ⟨i, hvhead⟩) hv hklt]
      rw [List.getElem?_map, ih is hlen' hvtail]
      have hgetd : g.getD i d = g.get ⟨i, hvhead⟩ := by
        rw [List.getD_eq_getElem?_getD, List.getElem?_eq_getElem hvhead, List.get_eq_getElem]
        rfl
      show some (g.get ⟨i, hvhead⟩ :: pointwiseSelect d gs is)
          = some (pointwiseSelect d (g :: gs) (i :: is))
      rw [show pointwiseSelect d (g :: gs) (i :: is)
          = g.getD i d :: pointwiseSelect d gs is from rfl, hgetd]

theorem itProduct_nodup {α : Type} (gs : List (List α)) (h : ∀ g ∈ gs, g.Nodup) :
    (itProduct gs).Nodup := by
  induction gs with
  | nil => simp [itProduct]
  | cons g gs ih =>
    simp only [itProduct]
    rw [List.nodup_flatMap]
    constructor
    · intro v _
      apply List.Nodup.map
      · intro x y hxy
        simpa using hxy
      · exact ih (fun g' hg' => h g' (List.mem_cons_of_mem g hg'))
    · have hg : g.Nodup := h g (List.mem_cons_self g gs)
      refine List.Pairwise.imp ?_ hg
      intro a b hab
      intro x hxa hxb
      simp only [Function.onFun, List.mem_map] at hxa hxb
      obtain ⟨c1, _, e1⟩ := hxa
      obtain ⟨c2, _, e2⟩ := hxb
      rw [← e1] at e2
      injection e2 with h1 _
      exact hab h1.symm

/-- C8: `strategies.grid` produces exactly one substitution mapping per
element of the Cartesian product of the per-template grids — the count is
the product of the grid lengths, the combination selected by a valid index
vector sits at its mixed-radix rank (first template most significant, last
template fastest), and the mappings are pairwise distinct whenever each axis
is duplicate-free. -/
theorem C8_grid_is_cartesian_product (range_map : List (Str × GridRange))
    (divisions : ℕ) (_hne : range_map ≠ []) :
    (grid_substitutions range_map divisions).length
      = ((grid_axes range_map divisions).map List.length).prod
    ∧ (∀ idxs : List ℕ, idxs.length = range_map.length →
        (∀ p ∈ idxs.zip ((grid_axes range_map divisions).map List.length), p.1 < p.2) →
        (grid_substitutions range_map divisions)[mixedRank
            (idxs.zip ((grid_axes range_map divisions).map List.length))]?
          = some ((range_map.map Prod.fst).zip
              (pointwiseSelect [] (grid_axes range_map divisions) idxs)))
    ∧ ((∀ g ∈ grid_axes range_map divisions, g.Nodup)
        → (grid_substitutions range_map divisions).Nodup) := by
  refine ⟨?_, ?_, ?_⟩
  · simp [grid_substitutions, itProduct_length]
  · intro idxs hlen hvalid
    have hlen' : idxs.length = (grid_axes range_map divisions).length := by
      simpa [grid_axes] using hlen
    simp only [grid_substitutions, List.getElem?_map]
    rw [itProduct_getElem? [] (grid_axes range_map divisions) idxs hlen' hvalid]
    rfl
  · intro hax
    have hnames : (range_map.map Prod.fst).length = (grid_axes range_map divisions).length := by
      simp [grid_axes]
    apply List.Nodup.map_on
    · intro x hx y hy hxy
      have hxl : x.length = (grid_axes range_map divisions).length :=
        itProduct_mem_length _ x hx
      have hyl : y.length = (grid_axes range_map divisions).length :=
        itProduct_mem_length _ y hy
      have hxz := List.map_snd_zip (range_map.map Prod.fst) x (by omega)
      have hyz := List.map_snd_zip (range_map.map Prod.fst) y (by omega)
      rw [← hxz, ← hyz, hxy]
    · exact itProduct_nodup _ hax

/-- Witness for C8: two templates with categorical grids of sizes 3 and 4
yield exactly `3 * 4 = 12` substitution mappings. -/
theorem C8_witness :
    (grid_substitutions
        [("x".toList, GridRange.catR ⟨["1".toList, "2".toList, "3".toList]⟩),
         ("y".toList, GridRange.catR ⟨["u".toList, "v".toList, "w".toList, "z".toList]⟩)]
        5).length
      = ((grid_axes
          [("x".toList, GridRange.catR ⟨["1".toList, "2".toList, "3".toList]⟩),
           ("y".toList, GridRange.catR ⟨["u".toList, "v".toList, "w".toList, "z".toList]⟩)]
          5).map List.length).prod
    ∧ (grid_substitutions
        [("x".toList, GridRange.catR ⟨["1".toList, "2".toList, "3".toList]⟩),
         ("y".toList, GridRange.catR ⟨["u".toList, "v".toList, "w".toList, "z".toList]⟩)]
        5).length = 12 :=
  ⟨(C8_grid_is_cartesian_product
      [("x".toList, GridRange.catR ⟨["1".toList, "2".toList, "3".toList]⟩),
       ("y".toList, GridRange.catR ⟨["u".toList, "v".toList, "w".toList, "z".toList]⟩)]
      5 (by simp)).1, by rfl⟩

/-! ## Supporting lemmas: truncation toward zero and integer linspace -/

theorem pyInt_intCast (n : ℤ) : pyInt (n : ℚ) = n := by
  unfold pyInt
  by_cases h : (0 : ℚ) ≤ (n : ℚ)
  · simp [h]
  · simp [h]

theorem pyInt_mono {x y : ℚ} (h : x ≤ y) : pyInt x ≤ pyInt y := by
  unfold pyInt
  by_cases hx : (0 : ℚ) ≤ x
  · have hy : (0 : ℚ) ≤ y := le_trans hx h
    simp only [if_pos hx, if_pos hy]
    exact Int.floor_le_floor h
  · by_cases hy : (0 : ℚ) ≤ y
    · simp only [if_neg hx, if_pos hy]
      have h1 : ⌈x⌉ ≤ 0 := Int.ceil_le.mpr (by exact_mod_cast le_of_not_le hx)
      have h2 : (0 : ℤ) ≤ ⌊y⌋ := Int.floor_nonneg.mpr hy
      omega
    · simp only [if_neg hx, if_neg hy]
      exact Int.ceil_le_ceil h

theorem pyInt_bounds {a b : ℤ} {x : ℚ} (ha : (a : ℚ) ≤ x) (hb : x ≤ (b : ℚ)) :
    a ≤ pyInt x ∧ pyInt x ≤ b := by
  constructor
  · have h := pyInt_mono ha
    rwa [pyInt_intCast] at h
  · have h := pyInt_mono hb
    rwa [pyInt_intCast] at h

theorem chain'_range_of_adjacent (r : ℕ → ℕ → Prop) {n : ℕ}
    (h : ∀ m, m + 1 < n → r m (m + 1)) : List.Chain' r (List.range n) := by
  cases n with
  | zero => simp
  | succ m =>
    rw [List.chain'_range_succ]
    intro i hi
    exact h i (by omega)

theorem linspaceInt_length (a b : ℤ) (n : ℕ) : (linspaceInt a b n).length = n := by
  unfold linspaceInt
  split <;> simp

theorem linspaceInt_one (a b : ℤ) : linspaceInt a b 1 = [a] := by
  unfold linspaceInt
  rfl

theorem linspaceInt_spec (a b : ℤ) (n : ℕ) (hab : a ≤ b) (h2 : 2 ≤ n) :
    (∀ v ∈ linspaceInt a b n, a ≤ v ∧ v ≤ b)
    ∧ (linspaceInt a b n).Chain' (fun u v => u ≤ v)
    ∧ (linspaceInt a b n).head? = some a
    ∧ (linspaceInt a b n).getLast? = some b := by
  have hn1 : ¬ n ≤ 1 := by omega
  have hunfold : linspaceInt a b n = (List.range n).map
      (fun i : ℕ => pyInt ((a : ℚ) + (i : ℚ) * ((b : ℚ) - (a : ℚ)) / ((n : ℚ) - 1))) := by
    unfold linspaceInt
    rw [if_neg hn1]
  have hden : (0 : ℚ) < (n : ℚ) - 1 := by
    have : (2 : ℚ) ≤ (n : ℚ) := by exact_mod_cast h2
    linarith
  have hba : (0 : ℚ) ≤ (b : ℚ) - (a : ℚ) := by
    have : (a : ℚ) ≤ (b : ℚ) := by exact_mod_cast hab
    linarith
  have hmono : ∀ i j : ℕ, i ≤ j →
      (a : ℚ) + (i : ℚ) * ((b : ℚ) - (a : ℚ)) / ((n : ℚ) - 1)
        ≤ (a : ℚ) + (j : ℚ) * ((b : ℚ) - (a : ℚ)) / ((n : ℚ) - 1) := by
    intro i j hij
    have hij' : (i : ℚ) ≤ (j : ℚ) := by exact_mod_cast hij
    have hnum : (i : ℚ) * ((b : ℚ) - (a : ℚ)) ≤ (j : ℚ) * ((b : ℚ) - (a : ℚ)) :=
      mul_le_mul_of_nonneg_right hij' hba
    have hdiv : (i : ℚ) * ((b : ℚ) - (a : ℚ)) / ((n : ℚ) - 1)
        ≤ (j : ℚ) * ((b : ℚ) - (a : ℚ)) / ((n : ℚ) - 1) :=
      div_le_div_of_nonneg_right hnum (le_of_lt hden)
    linarith
  have hcast : ((n - 1 : ℕ) : ℚ) = (n : ℚ) - 1 := by
    have h1 : 1 ≤ n := by omega
    push_cast [Nat.cast_sub h1]
    ring
  have hlast : (a : ℚ) + ((n - 1 : ℕ) : ℚ) * ((b : ℚ) - (a : ℚ)) / ((n : ℚ) - 1) = (b : ℚ) := by
    rw [hcast]
    field_simp
  have hbounds : ∀ i : ℕ, i ≤ n - 1 →
      (a : ℚ) ≤ (a : ℚ) + (i : ℚ) * ((b : ℚ) - (a : ℚ)) / ((n : ℚ) - 1)
      ∧ (a : ℚ) + (i : ℚ) * ((b : ℚ) - (a : ℚ)) / ((n : ℚ) - 1) ≤ (b : ℚ) := by
    intro i hi
    constructor
    · have hterm : (0 : ℚ) ≤ (i : ℚ) * ((b : ℚ) - (a : ℚ)) / ((n : ℚ) - 1) :=
        div_nonneg (mul_nonneg (Nat.cast_nonneg i) hba) (le_of_lt hden)
      linarith
    · calc (a : ℚ) + (i : ℚ) * ((b : ℚ) - (a : ℚ)) / ((n : ℚ) - 1)
          ≤ (a : ℚ) + ((n - 1 : ℕ) : ℚ) * ((b : ℚ) - (a : ℚ)) / ((n : ℚ) - 1) :=
            hmono i (n - 1) hi
        _ = (b : ℚ) := hlast
  refine ⟨?_, ?_, ?_, ?_⟩
  · intro v hv
    rw [hunfold, List.mem_map] at hv
    obtain ⟨i, hi, rfl⟩ := hv
    have hi' : i ≤ n - 1 := by
      have := List.mem_range.mp hi
      omega
    exact pyInt_bounds (hbounds i hi').1 (hbounds i hi').2
  · rw [hunfold, List.chain'_map]
    apply chain'_range_of_adjacent
    intro m _
    exact pyInt_mono (hmono m (m + 1) (by omega))
  · rw [hunfold]
    have hn' : n = (n - 1) + 1 := by omega
    rw [hn', List.range_succ_eq_map]
    simp [pyInt_intCast]
  · rw [hunfold, List.getLast?_eq_getElem?]
    have hlen : ((List.range n).map
        (fun i : ℕ => pyInt ((a : ℚ) + (i : ℚ) * ((b : ℚ) - (a : ℚ)) / ((n : ℚ) - 1)))).length
        = n := by simp
    rw [hlen, List.getElem?_map, List.getElem?_range (by omega : n - 1 < n)]
    simp only [Option.map_some']
    rw [hlast, pyInt_intCast]

/-- C6 (amended): for `IntRange(a, b)` with `a ≤ b` and `divisions ≥ 1`,
`grid` returns exactly `min(divisions, b - a + 1)` integer values, all
within `[a, b]`, in non-decreasing order, with first element `a`; the last
element equals `b` whenever `divisions ≥ 2` or `a = b` (for
`divisions = 1 < b - a + 1`, `np.linspace(a, b, num=1)` is `[a]`, so the
last element is `a`, not `b`). -/
theorem C6_grid_properties (a b : ℤ) (d : ℕ) (hab : a ≤ b) (hd : 1 ≤ d) :
    ((IntRange.make a b).grid_ints d).length = min d (b - a + 1).toNat
    ∧ (∀ v ∈ (IntRange.make a b).grid_ints d, a ≤ v ∧ v ≤ b)
    ∧ ((IntRange.make a b).grid_ints d).Chain' (fun u v => u ≤ v)
    ∧ ((IntRange.make a b).grid_ints d).head? = some a
    ∧ ((2 ≤ d ∨ a = b) → ((IntRange.make a b).grid_ints d).getLast? = some b)
    ∧ (IntRange.make a b).grid d = ((IntRange.make a b).grid_ints d).map intStr := by
  have hmk : IntRange.make a b = ⟨a, b⟩ := by
    simp [IntRange.make, min_eq_left hab, max_eq_right hab]
  have hgrid : (IntRange.make a b).grid_ints d
      = linspaceInt a b (min d (b - a + 1).toNat) := by
    rw [hmk]
    rfl
  have htn : (b - a + 1).toNat = (b - a + 1) := by omega
  have htpos : 1 ≤ (b - a + 1).toNat := by omega
  have hnpos : 1 ≤ min d (b - a + 1).toNat := le_min hd htpos
  have hmain : ((IntRange.make a b).grid_ints d).length = min d (b - a + 1).toNat
      ∧ (∀ v ∈ (IntRange.make a b).grid_ints d, a ≤ v ∧ v ≤ b)
      ∧ ((IntRange.make a b).grid_ints d).Chain' (fun u v => u ≤ v)
      ∧ ((IntRange.make a b).grid_ints d).head? = some a
      ∧ ((2 ≤ d ∨ a = b) → ((IntRange.make a b).grid_ints d).getLast? = some b) := by
    rcases Nat.lt_or_ge (min d (b - a + 1).toNat) 2 with hn1 | hn2
    · -- the clamped division count is 1
      have hone : min d (b - a + 1).toNat = 1 := by omega
      rw [hgrid, hone, linspaceInt_one]
      refine ⟨by simp [hone], ?_, ?_, ?_, ?_⟩
      · intro v hv
        rw [List.mem_singleton] at hv
        rw [hv]
        exact ⟨le_refl a, hab⟩
      · simp
      · rfl
      · intro hor
        have heq : a = b := by
          rcases hor with h2d | hba
          · omega
          · exact hba
        rw [heq]
        rfl
    · rw [hgrid]
      obtain ⟨hmem, hchain, hhead, hlastl⟩ :=
        linspaceInt_spec a b (min d (b - a + 1).toNat) hab hn2
      exact ⟨by rw [linspaceInt_length], hmem, hchain, hhead, fun _ => hlastl⟩
  exact ⟨hmain.1, hmain.2.1, hmain.2.2.1, hmain.2.2.2.1, hmain.2.2.2.2, rfl⟩

/-- Witness for C6 at `IntRange(1, 3)` with `divisions = 2`. -/
theorem C6_witness :
    ((IntRange.make 1 3).grid_ints 2).length = min 2 ((3 : ℤ) - 1 + 1).toNat
    ∧ (∀ v ∈ (IntRange.make 1 3).grid_ints 2, (1 : ℤ) ≤ v ∧ v ≤ 3)
    ∧ ((IntRange.make 1 3).grid_ints 2).Chain' (fun u v => u ≤ v)
    ∧ ((IntRange.make 1 3).grid_ints 2).head? = some 1
    ∧ ((2 ≤ 2 ∨ (1 : ℤ) = 3) → ((IntRange.make 1 3).grid_ints 2).getLast? = some 3)
    ∧ (IntRange.make 1 3).grid 2 = ((IntRange.make 1 3).grid_ints 2).map intStr :=
  C6_grid_properties 1 3 2 (by decide) (by decide)

/-! ## Supporting lemmas: `str.replace` over chunked templates -/

theorem pyReplaceFuel_congr : ∀ (f1 f2 : ℕ) (s pat repl : Str),
    s.length < f1 → s.length < f2 →
    pyReplaceFuel f1 s pat repl = pyReplaceFuel f2 s pat repl := by
  intro f1
  induction f1 with
  | zero =>
    intro f2 s pat repl h1 _
    omega
  | succ f1 ih =>
    intro f2 s pat repl h1 h2
    cases f2 with
    | zero => omega
    | succ f2 =>
      cases s with
      | nil => rfl
      | cons c rest =>
        simp only [List.length_cons] at h1 h2
        simp only [pyReplaceFuel]
        by_cases hc : pat ≠ [] ∧ pat.isPrefixOf (c :: rest)
        · rw [if_pos hc, if_pos hc]
          congr 1
          apply ih
          · rw [List.length_drop]
            omega
          · rw [List.length_drop]
            omega
        · rw [if_neg hc, if_neg hc]
          congr 1
          apply ih
          · omega
          · omega

theorem pyReplace_cons (c : Char) (rest pat repl : Str) :
    pyReplace (c :: rest) pat repl =
      if pat ≠ [] ∧ pat.isPrefixOf (c :: rest) then
        repl ++ pyReplace (rest.drop (pat.length - 1)) pat repl
      else c :: pyReplace rest pat repl := by
  show pyReplaceFuel ((c :: rest).length + 1) (c :: rest) pat repl = _
  simp only [List.length_cons, pyReplaceFuel]
  by_cases hc : pat ≠ [] ∧ pat.isPrefixOf (c :: rest)
  · rw [if_pos hc, if_pos hc]
    congr 1
    apply pyReplaceFuel_congr
    · rw [List.length_drop]
      omega
    · rw [List.length_drop]
      omega
  · rw [if_neg hc, if_neg hc]
    rfl

/-- Replacement scans over text that cannot start a match. -/
theorem pyReplace_skip (t s p repl : Str) (ht : ∀ c ∈ t, c ≠ '{') :
    pyReplace (t ++ s) ('{' :: p) repl = t ++ pyReplace s ('{' :: p) repl := by
  induction t with
  | nil => rfl
  | cons c t ih =>
    have hc : c ≠ '{' := ht c (List.mem_cons_self c t)
    rw [List.cons_append, pyReplace_cons]
    have hnp : ¬ (('{' :: p) ≠ [] ∧ ('{' :: p).isPrefixOf (c :: (t ++ s))) := by
      intro hcontra
      have hpre := hcontra.2
      simp only [List.isPrefixOf, Bool.and_eq_true, beq_iff_eq] at hpre
      exact hc hpre.1.symm
    rw [if_neg hnp, ih (fun d hd => ht d (List.mem_cons_of_mem c hd))]
    rfl

theorem isPrefixOf_self_append (l t : Str) : l.isPrefixOf (l ++ t) = true := by
  induction l with
  | nil => cases t <;> rfl
  | cons c l ih => simp [List.isPrefixOf, ih]

/-- Replacement fires where the pattern occurs, and resumes after it. -/
theorem pyReplace_match (pat s repl : Str) (hne : pat ≠ []) :
    pyReplace (pat ++ s) pat repl = repl ++ pyReplace s pat repl := by
  match pat, hne with
  | c :: p, _ =>
    rw [List.cons_append, pyReplace_cons]
    have hpre : (c :: p).isPrefixOf (c :: (p ++ s)) = true := by
      show (c :: p).isPrefixOf ((c :: p) ++ s) = true
      exact isPrefixOf_self_append (c :: p) s
    rw [if_pos ⟨by simp, hpre⟩]
    have hdrop : (p ++ s).drop ((c :: p).length - 1) = s := by
      simp only [List.length_cons, Nat.add_sub_cancel]
      exact List.drop_left p s
    rw [hdrop]

/-- `pyReplace_skip` specialised to a brace-wrapped pattern. -/
theorem pyReplace_skip_wrap (t s k repl : Str) (ht : ∀ c ∈ t, c ≠ '{') :
    pyReplace (t ++ s) (wrapBraces k) repl = t ++ pyReplace s (wrapBraces k) repl :=
  pyReplace_skip t s (k ++ ['}']) repl ht

/-- `pyReplace_match` specialised to a brace-wrapped pattern. -/
theorem pyReplace_match_wrap (k s repl : Str) :
    pyReplace (wrapBraces k ++ s) (wrapBraces k) repl
      = repl ++ pyReplace s (wrapBraces k) repl :=
  pyReplace_match (wrapBraces k) s repl (by simp [wrapBraces])

/-- A brace-wrapped token can only be a prefix of a brace-wrapped-name text
when the tokens agree. -/
theorem prefix_wrap_eq (k : Str) : ∀ (n s : Str), (∀ c ∈ k, c ≠ '}') → (∀ c ∈ n, c ≠ '}') →
    (k ++ ['}']).isPrefixOf (n ++ '}' :: s) = true → k = n := by
  induction k with
  | nil =>
    intro n s _ hn hpre
    cases n with
    | nil => rfl
    | cons b n' =>
      simp only [List.nil_append, List.cons_append, List.isPrefixOf, Bool.and_eq_true,
        beq_iff_eq] at hpre
      exact absurd hpre.1.symm (hn b (List.mem_cons_self b n'))
  | cons a k' ih =>
    intro n s hk hn hpre
    cases n with
    | nil =>
      simp only [List.cons_append, List.nil_append, List.isPrefixOf, Bool.and_eq_true,
        beq_iff_eq] at hpre
      exact absurd hpre.1 (hk a (List.mem_cons_self a k'))
    | cons b n' =>
      simp only [List.cons_append, List.isPrefixOf, Bool.and_eq_true, beq_iff_eq] at hpre
      have htail : k' = n' :=
        ih n' s (fun c hc => hk c (List.mem_cons_of_mem a hc))
          (fun c hc => hn c (List.mem_cons_of_mem b hc)) hpre.2
      rw [hpre.1, htail]

theorem braceFree_spec {s : Str} (h : braceFree s = true) :
    ∀ c ∈ s, c ≠ '{' ∧ c ≠ '}' := by
  intro c hc
  have hall := List.all_eq_true.mp h c hc
  simp only [Bool.and_eq_true, Bool.not_eq_true', decide_eq_false_iff_not] at hall
  exact hall

theorem render_cons (ck : Chunk) (cks : List Chunk) :
    render (ck :: cks) = renderChunk ck ++ render cks := rfl

/-- One `str.replace` call on a rendered well-formed template replaces
exactly the placeholders named by the key. -/
theorem pyReplace_render (k v : Str) (hk : braceFree k = true) :
    ∀ (chunks : List Chunk), chunksWF chunks = true →
    pyReplace (render chunks) (wrapBraces k) v
      = render (chunks.map (replaceChunk k v)) := by
  intro chunks
  induction chunks with
  | nil => intro _; rfl
  | cons ck cks ih =>
    intro hwf
    have hwf1 : chunkTokensOK ck = true :=
      List.all_eq_true.mp hwf ck (List.mem_cons_self ck cks)
    have hwf2 : chunksWF cks = true := by
      apply List.all_eq_true.mpr
      intro x hx
      exact List.all_eq_true.mp hwf x (List.mem_cons_of_mem ck hx)
    cases ck with
    | lit t =>
      have ht := braceFree_spec (s := t) hwf1
      show pyReplace (t ++ render cks) (wrapBraces k) v = _
      rw [pyReplace_skip_wrap t _ _ v (fun c hc => (ht c hc).1), ih hwf2]
      rfl
    | ph n =>
      have hn := braceFree_spec (s := n) hwf1
      by_cases hnk : n = k
      · subst hnk
        show pyReplace (wrapBraces n ++ render cks) (wrapBraces n) v = _
        rw [pyReplace_match_wrap, ih hwf2]
        simp [replaceChunk, render_cons, renderChunk]
      · show pyReplace ('{' :: ((n ++ ['}']) ++ render cks)) (wrapBraces k) v = _
        rw [pyReplace_cons]
        have hnopre : ¬ ((wrapBraces k) ≠ []
            ∧ (wrapBraces k).isPrefixOf ('{' :: ((n ++ ['}']) ++ render cks))) := by
          intro hcontra
          have hpre := hcontra.2
          simp only [wrapBraces, List.isPrefixOf, Bool.and_eq_true, beq_iff_eq] at hpre
          have hps : (k ++ ['}']).isPrefixOf (n ++ '}' :: render cks) = true := by
            have hassoc : (n ++ ['}']) ++ render cks = n ++ '}' :: render cks := by simp
            rw [← hassoc]
            exact hpre.2
          exact hnk (prefix_wrap_eq k n (render cks)
            (fun c hc => (braceFree_spec hk c hc).2)
            (fun c hc => (hn c hc).2) hps).symm
        rw [if_neg hnopre]
        have hskip : ∀ c ∈ n ++ ['}'], c ≠ '{' := by
          intro c hc
          rcases List.mem_append.mp hc with hcn | hcb
          · exact (hn c hcn).1
          · rw [List.mem_singleton] at hcb
            rw [hcb]
            decide
        rw [pyReplace_skip_wrap (n ++ ['}']) _ _ v hskip, ih hwf2]
        simp [replaceChunk, render_cons, renderChunk, hnk, wrapBraces]

theorem chunksWF_map_replace (chunks : List Chunk) (k v : Str)
    (hwf : chunksWF chunks = true) (hbfv : braceFree v = true) :
    chunksWF (chunks.map (replaceChunk k v)) = true := by
  apply List.all_eq_true.mpr
  intro x hx
  rw [List.mem_map] at hx
  obtain ⟨ck, hck, rfl⟩ := hx
  have h1 := List.all_eq_true.mp hwf ck hck
  cases ck with
  | lit t => exact h1
  | ph n =>
    by_cases hnk : n = k
    · simp [replaceChunk, hnk, chunkTokensOK, hbfv]
    · simp only [replaceChunk, if_neg hnk]
      exact h1

theorem substChunk_nil (c : Chunk) : substChunk [] c = c := by
  cases c <;> rfl

/-- The whole `apply_substitutions` call acts chunkwise when every key and
value is brace-free: placeholders with mapped names become their (first)
value as literal text, everything else is untouched. -/
theorem apply_substitutions_render : ∀ (subs : List (Str × Str)) (chunks : List Chunk),
    chunksWF chunks = true → subsBraceFree subs = true →
    apply_substitutions (render chunks) subs = render (chunks.map (substChunk subs)) := by
  intro subs
  induction subs with
  | nil =>
    intro chunks _ _
    show render chunks = render (chunks.map (substChunk []))
    rw [show chunks.map (substChunk []) = chunks.map id from
      List.map_congr_left (fun c _ => substChunk_nil c), List.map_id]
  | cons kv rest ih =>
    intro chunks hwf hbf
    obtain ⟨k, v⟩ := kv
    have hbf1 := List.all_eq_true.mp hbf (k, v) (List.mem_cons_self _ _)
    simp only [Bool.and_eq_true] at hbf1
    have hbfrest : subsBraceFree rest = true := by
      apply List.all_eq_true.mpr
      intro x hx
      exact List.all_eq_true.mp hbf x (List.mem_cons_of_mem _ hx)
    show apply_substitutions (pyReplace (render chunks) (wrapBraces k) v) rest = _
    rw [pyReplace_render k v hbf1.1 chunks hwf]
    rw [ih (chunks.map (replaceChunk k v)) (chunksWF_map_replace chunks k v hwf hbf1.2)
      hbfrest]
    congr 1
    rw [List.map_map]
    apply List.map_congr_left
    intro c _
    show substChunk rest (replaceChunk k v c) = substChunk ((k, v) :: rest) c
    cases c with
    | lit t => rfl
    | ph n =>
      by_cases hnk : n = k
      · subst hnk
        simp [replaceChunk, substChunk, List.lookup]
      · have hbeq : (n == k) = false := by
          rw [beq_eq_false_iff_ne]
          exact hnk
        simp [replaceChunk, if_neg hnk, substChunk, List.lookup, hbeq]

/-- Both well-formedness provisos on the chunk-level theorems below are
necessary, not just the brace-freeness of the mapping: with every key and
value brace-free, a template whose non-placeholder text contains stray
braces can still lose text, because a replacement can forge a new
brace-wrapped key occurrence spanning replaced and adjacent template text.
On the template `"{{a}c}{Bc}"` — whose placeholders are `{a}` and `{Bc}`,
the characters `{`, `c}` being non-placeholder text — the mapping
`a ↦ "B"`, `Bc ↦ "Z"` first produces `"{Bc}{Bc}"` and then `"ZZ"`,
destroying the non-placeholder text. -/
theorem apply_substitutions_stray_brace_example :
    apply_substitutions ['{', '{', 'a', '}', 'c', '}', '{', 'B', 'c', '}']
        [(['a'], ['B']), (['B', 'c'], ['Z'])] = ['Z', 'Z']
    ∧ 'c' ∉ apply_substitutions ['{', '{', 'a', '}', 'c', '}', '{', 'B', 'c', '}']
        [(['a'], ['B']), (['B', 'c'], ['Z'])] := by
  decide

/-- C1 (amended): substitutions are applied one after another by
whole-string replacement; provided the template decomposes into brace-free
literal text and brace-delimited placeholders with brace-free names
(`chunksWF`), and no key or value of the mapping contains a brace character
(`subsBraceFree`), the result is exactly the chunkwise substitution — every
brace-wrapped occurrence of each mapped name is replaced by that name's
(first) value, which appears literally and is never rescanned, and all
other text is kept verbatim.  (Both provisos are necessary: a value with
brace syntax is rescanned by later substitutions, and a template with stray
braces in its non-placeholder text can lose that text even under a fully
brace-free mapping, as `apply_substitutions_stray_brace_example` shows.) -/
theorem C1_substitution_is_chunkwise (chunks : List Chunk) (subs : List (Str × Str))
    (hwf : chunksWF chunks = true) (hbf : subsBraceFree subs = true) :
    apply_substitutions (render chunks) subs
      = render (chunks.map (substChunk subs)) :=
  apply_substitutions_render subs chunks hwf hbf

/-- Witness for C1: the template `"{a} x "` with mapping `a ↦ "1"`. -/
theorem C1_witness :
    apply_substitutions (render [Chunk.ph "a".toList, Chunk.lit " x ".toList])
        [("a".toList, "1".toList)]
      = render ([Chunk.ph "a".toList, Chunk.lit " x ".toList].map
          (substChunk [("a".toList, "1".toList)])) :=
  C1_substitution_is_chunkwise [Chunk.ph "a".toList, Chunk.lit " x ".toList]
    [("a".toList, "1".toList)] (by decide) (by decide)

/-- C10 (amended): provided the template decomposes into brace-free
non-placeholder text and brace-delimited placeholders with brace-free names
(`chunksWF`), and no key or value of the mapping contains a brace character
(`subsBraceFree`), substitution touches only exact brace-wrapped key
occurrences — a chunk that is literal template text, or a placeholder whose
name is not a key of the mapping, appears verbatim in the output in its
original position, between the substituted renderings of its surroundings;
no error is raised (substitution is a total function).  Both provisos are
necessary: sequential replacement can forge a new brace-wrapped key
occurrence spanning replaced and adjacent text, either from a
brace-containing value (the counterexample to the original claim) or from
stray braces in the template's non-placeholder text
(`apply_substitutions_stray_brace_example`). -/
theorem C10_unmatched_text_preserved (pre post : List Chunk) (ck : Chunk)
    (subs : List (Str × Str))
    (hwf : chunksWF (pre ++ ck :: post) = true) (hbf : subsBraceFree subs = true)
    (hck : ∀ n, ck = Chunk.ph n → subs.lookup n = none) :
    apply_substitutions (render (pre ++ ck :: post)) subs
      = render (pre.map (substChunk subs)) ++ renderChunk ck
        ++ render (post.map (substChunk subs)) := by
  rw [apply_substitutions_render subs _ hwf hbf]
  have hfix : substChunk subs ck = ck := by
    cases ck with
    | lit t => rfl
    | ph n => simp [substChunk, hck n rfl]
  rw [List.map_append, List.map_cons, hfix]
  simp [render, List.flatten_append, List.append_assoc]

/-- Witness for C10: in the template `"{a}{z}t"` with mapping `a ↦ "1"`, the
unmatched placeholder chunk for `z` passes through unchanged. -/
theorem C10_witness :
    apply_substitutions
        (render ([Chunk.ph "a".toList] ++ Chunk.ph "z".toList :: [Chunk.lit "t".toList]))
        [("a".toList, "1".toList)]
      = render ([Chunk.ph "a".toList].map (substChunk [("a".toList, "1".toList)]))
        ++ renderChunk (Chunk.ph "z".toList)
        ++ render ([Chunk.lit "t".toList].map (substChunk [("a".toList, "1".toList)])) :=
  C10_unmatched_text_preserved [Chunk.ph "a".toList] [Chunk.lit "t".toList]
    (Chunk.ph "z".toList) [("a".toList, "1".toList)] (by decide) (by decide)
    (fun n hn => by cases hn; rfl)

/-! ## Supporting lemmas: stripping and line splitting -/

theorem dropTrailingWs_append_ws (x y : Str) (hy : ∀ c ∈ y, pyIsSpace c = true) :
    dropTrailingWs (x ++ y) = dropTrailingWs x := by
  unfold dropTrailingWs
  rw [List.reverse_append]
  have h1 : y.reverse.dropWhile pyIsSpace = [] := by
    rw [List.dropWhile_eq_nil_iff]
    intro c hc
    exact hy c (List.mem_reverse.mp hc)
  rw [List.dropWhile_append, h1]
  simp

theorem dropTrailingWs_append_keep (x y : Str) (hy : ∃ c ∈ y, pyIsSpace c = false) :
    dropTrailingWs (x ++ y) = x ++ dropTrailingWs y := by
  unfold dropTrailingWs
  rw [List.reverse_append, List.dropWhile_append]
  have h1 : ¬ (y.reverse.dropWhile pyIsSpace).isEmpty = true := by
    rw [List.isEmpty_iff, List.dropWhile_eq_nil_iff]
    intro hall
    obtain ⟨c, hc, hcf⟩ := hy
    have := hall c (List.mem_reverse.mpr hc)
    rw [this] at hcf
    exact absurd hcf (by decide)
  rw [if_neg h1, List.reverse_append, List.reverse_reverse]

theorem dropLeadingWs_append_keep (x y : Str) (hx : ∃ c ∈ x, pyIsSpace c = false) :
    dropLeadingWs (x ++ y) = dropLeadingWs x ++ y := by
  unfold dropLeadingWs
  rw [List.dropWhile_append]
  have h1 : ¬ (x.dropWhile pyIsSpace).isEmpty = true := by
    rw [List.isEmpty_iff, List.dropWhile_eq_nil_iff]
    intro hall
    obtain ⟨c, hc, hcf⟩ := hx
    have := hall c hc
    rw [this] at hcf
    exact absurd hcf (by decide)
  rw [if_neg h1]

theorem dropLeadingWs_ws_append (x y : Str) (hx : ∀ c ∈ x, pyIsSpace c = true) :
    dropLeadingWs (x ++ y) = dropLeadingWs y := by
  unfold dropLeadingWs
  rw [List.dropWhile_append]
  have h1 : x.dropWhile pyIsSpace = [] := by
    rw [List.dropWhile_eq_nil_iff]
    exact hx
  rw [h1]
  simp

theorem pyStrip_all_ws (x : Str) (hx : ∀ c ∈ x, pyIsSpace c = true) : pyStrip x = [] := by
  unfold pyStrip dropTrailingWs
  have h1 : dropLeadingWs x = [] := by
    unfold dropLeadingWs
    rw [List.dropWhile_eq_nil_iff]
    exact hx
  rw [h1]
  rfl

theorem pyStrip_append_ws (x trail : Str) (htrail : ∀ c ∈ trail, pyIsSpace c = true) :
    pyStrip (x ++ trail) = pyStrip x := by
  by_cases hx : ∃ c ∈ x, pyIsSpace c = false
  · unfold pyStrip
    rw [dropLeadingWs_append_keep x trail hx, dropTrailingWs_append_ws _ _ htrail]
  · have hxall : ∀ c ∈ x, pyIsSpace c = true := by
      intro c hc
      by_contra hcf
      exact hx ⟨c, hc, by revert hcf; cases pyIsSpace c <;> simp⟩
    rw [pyStrip_all_ws x hxall, pyStrip_all_ws (x ++ trail)]
    intro c hc
    rcases List.mem_append.mp hc with h | h
    · exact hxall c h
    · exact htrail c h

theorem pyStrip_ws_append (lead x : Str) (hlead : ∀ c ∈ lead, pyIsSpace c = true) :
    pyStrip (lead ++ x) = pyStrip x := by
  unfold pyStrip
  rw [dropLeadingWs_ws_append lead x hlead]

theorem dropTrailingWs_decomp (x : Str) :
    x = dropTrailingWs x ++ (x.reverse.takeWhile pyIsSpace).reverse := by
  have h : (dropTrailingWs x ++ (x.reverse.takeWhile pyIsSpace).reverse).reverse
      = x.reverse := by
    rw [List.reverse_append, List.reverse_reverse]
    unfold dropTrailingWs
    rw [List.reverse_reverse]
    exact List.takeWhile_append_dropWhile pyIsSpace x.reverse
  have h2 := congrArg List.reverse h
  rw [List.reverse_reverse, List.reverse_reverse] at h2
  exact h2.symm

theorem dropLeadingWs_decomp (x : Str) :
    x = x.takeWhile pyIsSpace ++ dropLeadingWs x :=
  (List.takeWhile_append_dropWhile pyIsSpace x).symm

theorem pyStrip_dropTrailingWs (x : Str) : pyStrip (dropTrailingWs x) = pyStrip x := by
  conv_rhs => rw [dropTrailingWs_decomp x]
  rw [pyStrip_append_ws]
  intro c hc
  exact List.mem_takeWhile_imp (List.mem_reverse.mp hc)

theorem pyStrip_idem (x : Str) : pyStrip (pyStrip x) = pyStrip x := by
  have h1 : pyStrip x = pyStrip (dropLeadingWs x) := by
    conv_lhs => rw [dropLeadingWs_decomp x]
    exact pyStrip_ws_append _ _ (fun c hc => List.mem_takeWhile_imp hc)
  have h2 : pyStrip (pyStrip x) = pyStrip (dropLeadingWs x) :=
    pyStrip_dropTrailingWs (dropLeadingWs x)
  rw [h2, ← h1]

theorem pyFloatParse_strip_congr {a b : Str} (h : pyStrip a = pyStrip b) :
    pyFloatParse a = pyFloatParse b := by
  unfold pyFloatParse
  rw [h]

theorem mem_dropTrailingWs {x : Str} {c : Char} (hc : c ∈ dropTrailingWs x) : c ∈ x := by
  unfold dropTrailingWs at hc
  have h1 : List.Sublist (List.dropWhile pyIsSpace x.reverse) x.reverse :=
    List.dropWhile_sublist pyIsSpace
  have h2 := List.Sublist.reverse h1
  rw [List.reverse_reverse] at h2
  exact h2.subset hc

theorem mem_pyStrip {x : Str} {c : Char} (hc : c ∈ pyStrip x) : c ∈ x := by
  unfold pyStrip at hc
  have h1 := mem_dropTrailingWs hc
  unfold dropLeadingWs at h1
  exact (List.dropWhile_sublist pyIsSpace).subset h1

theorem splitNl_ne_nil (s : Str) : splitNl s ≠ [] := by
  cases s with
  | nil => simp [splitNl]
  | cons c r =>
    unfold splitNl
    by_cases hc : c = '\n'
    · simp [hc]
    · rw [if_neg hc]
      cases splitNl r <;> simp

theorem splitNl_no_nl (s : Str) (h : '\n' ∉ s) : splitNl s = [s] := by
  induction s with
  | nil => rfl
  | cons c r ih =>
    have hc : ¬ c = '\n' := fun hcc => h (hcc ▸ List.mem_cons_self c r)
    have hr : '\n' ∉ r := fun hrr => h (List.mem_cons_of_mem c hrr)
    unfold splitNl
    rw [if_neg hc, ih hr]

theorem getLastD_irrel (l : List Str) (d1 d2 : Str) (h : l ≠ []) :
    l.getLastD d1 = l.getLastD d2 := by
  cases l with
  | nil => exact absurd rfl h
  | cons a l' => rfl

theorem splitNl_two_of_mem (s : Str) (h : '\n' ∈ s) : (splitNl s).length ≥ 2 := by
  induction s with
  | nil => exact absurd h (List.not_mem_nil _)
  | cons c r ih =>
    unfold splitNl
    by_cases hc : c = '\n'
    · rw [if_pos hc]
      have := splitNl_ne_nil r
      cases hsr : splitNl r with
      | nil => exact absurd hsr this
      | cons a l => simp
    · rw [if_neg hc]
      have hr : '\n' ∈ r := by
        rcases List.mem_cons.mp h with h1 | h1
        · exact absurd h1.symm hc
        · exact h1
      have h2 := ih hr
      cases hsr : splitNl r with
      | nil => exact absurd hsr (splitNl_ne_nil r)
      | cons a l =>
        rw [hsr] at h2
        simp only [List.length_cons] at h2 ⊢
        omega

theorem getLastD_splitNl_append (A B : Str) (h : '\n' ∉ B) :
    (splitNl (A ++ '\n' :: B)).getLastD [] = B := by
  induction A with
  | nil =>
    show (splitNl ('\n' :: B)).getLastD [] = B
    unfold splitNl
    rw [if_pos rfl, splitNl_no_nl B h, List.getLastD_cons, List.getLastD_cons,
      List.getLastD_nil]
  | cons c A' ih =>
    show (splitNl (c :: (A' ++ '\n' :: B))).getLastD [] = B
    unfold splitNl
    by_cases hc : c = '\n'
    · rw [if_pos hc, List.getLastD_cons]
      exact ih
    · rw [if_neg hc]
      have hmem : '\n' ∈ A' ++ '\n' :: B := by
        apply List.mem_append.mpr
        exact Or.inr (List.mem_cons_self _ _)
      have hlen := splitNl_two_of_mem _ hmem
      cases hsr : splitNl (A' ++ '\n' :: B) with
      | nil => exact absurd hsr (splitNl_ne_nil _)
      | cons hh tt =>
        rw [hsr] at hlen ih
        have htt : tt ≠ [] := by
          intro hcontra
          rw [hcontra] at hlen
          simp at hlen
        rw [List.getLastD_cons] at ih
        rw [List.getLastD_cons]
        rw [getLastD_irrel tt (c :: hh) hh htt]
        exact ih

/-- Unfolding of `get_command_output` on an arbitrary stdout. -/
theorem get_command_output_eq (output : Str) :
    get_command_output output
      = match pyFloatParse ((splitNl (pyStrip output)).getLastD []) with
        | some q => Except.ok q
        | none =>
          Except.error (objectiveErrMsg ((splitNl (pyStrip output)).getLastD [])) := rfl

/-- Whatever precedes the final non-blank line is irrelevant:
`get_command_output` parses (modulo surrounding whitespace) the last
non-blank line of the captured stdout — here `L`, followed only by
whitespace `trail` — and on failure quotes that line, stripped of
surrounding whitespace, in the error. -/
theorem get_command_output_last_nonblank (pre L trail : Str)
    (hnl : '\n' ∉ L) (hL : ∃ c ∈ L, pyIsSpace c = false)
    (htrail : ∀ c ∈ trail, pyIsSpace c = true) :
    ∃ quoted : Str, pyStrip quoted = pyStrip L
    ∧ get_command_output (pre ++ '\n' :: (L ++ trail))
      = (match pyFloatParse L with
        | some q => Except.ok q
        | none => Except.error (objectiveErrMsg quoted)) := by
  by_cases hpre : ∃ c ∈ pre, pyIsSpace c = false
  · refine ⟨dropTrailingWs L, pyStrip_dropTrailingWs L, ?_⟩
    have hyL : ∃ c ∈ L ++ trail, pyIsSpace c = false := by
      obtain ⟨c, hc, hcf⟩ := hL
      exact ⟨c, List.mem_append.mpr (Or.inl hc), hcf⟩
    have hstrip : pyStrip (pre ++ '\n' :: (L ++ trail))
        = dropLeadingWs pre ++ '\n' :: dropTrailingWs L := by
      unfold pyStrip
      rw [dropLeadingWs_append_keep pre ('\n' :: (L ++ trail)) hpre]
      have hre : dropLeadingWs pre ++ '\n' :: (L ++ trail)
          = (dropLeadingWs pre ++ ['\n']) ++ (L ++ trail) := by simp
      rw [hre, dropTrailingWs_append_keep _ _ hyL, dropTrailingWs_append_ws L trail htrail]
      simp
    have hnl2 : '\n' ∉ dropTrailingWs L := fun hmem => hnl (mem_dropTrailingWs hmem)
    have hlast : (splitNl (pyStrip (pre ++ '\n' :: (L ++ trail)))).getLastD []
        = dropTrailingWs L := by
      rw [hstrip]
      exact getLastD_splitNl_append _ _ hnl2
    have hparse : pyFloatParse (dropTrailingWs L) = pyFloatParse L :=
      pyFloatParse_strip_congr (pyStrip_dropTrailingWs L)
    rw [get_command_output_eq, hlast, hparse]
  · have hpreall : ∀ c ∈ pre, pyIsSpace c = true := by
      intro c hc
      by_contra hcf
      refine hpre ⟨c, hc, ?_⟩
      revert hcf
      cases pyIsSpace c <;> simp
    refine ⟨pyStrip L, pyStrip_idem L, ?_⟩
    have hws : ∀ c ∈ pre ++ ['\n'], pyIsSpace c = true := by
      intro c hc
      rcases List.mem_append.mp hc with h1 | h1
      · exact hpreall c h1
      · rw [List.mem_singleton] at h1
        rw [h1]
        decide
    have hstrip : pyStrip (pre ++ '\n' :: (L ++ trail)) = pyStrip L := by
      have hre : pre ++ '\n' :: (L ++ trail) = (pre ++ ['\n']) ++ (L ++ trail) := by simp
      rw [hre, pyStrip_ws_append (pre ++ ['\n']) _ hws]
      exact pyStrip_append_ws L trail htrail
    have hnl2 : '\n' ∉ pyStrip L := fun hmem => hnl (mem_pyStrip hmem)
    have hlast : (splitNl (pyStrip (pre ++ '\n' :: (L ++ trail)))).getLastD []
        = pyStrip L := by
      rw [hstrip, splitNl_no_nl _ hnl2, List.getLastD_cons, List.getLastD_nil]
    have hparse : pyFloatParse (pyStrip L) = pyFloatParse L :=
      pyFloatParse_strip_congr (pyStrip_idem L)
    rw [get_command_output_eq, hlast, hparse]

/-- C4: objective extraction parses the floating-point number on the last
non-blank line of the captured stdout, and when that line does not parse it
fails with the `ValueError` quoting the offending line — a single attempt
with no retry (the embedded function is a pure single-pass computation).
Scenario checks: stdout `"ignored\n2.5\n"` yields `2.5`; stdout `"abc\n"`
yields the error message quoting `abc`. -/
theorem C4_objective_extraction :
    get_command_output "ignored\n2.5\n".toList = Except.ok (5/2)
    ∧ get_command_output "abc\n".toList = Except.error (objectiveErrMsg "abc".toList)
    ∧ (∀ pre L trail : Str, '\n' ∉ L → (∃ c ∈ L, pyIsSpace c = false) →
        (∀ c ∈ trail, pyIsSpace c = true) →
        ∃ quoted : Str, pyStrip quoted = pyStrip L
        ∧ get_command_output (pre ++ '\n' :: (L ++ trail))
          = (match pyFloatParse L with
            | some q => Except.ok q
            | none => Except.error (objectiveErrMsg quoted))) := by
  refine ⟨?_, by rfl, get_command_output_last_nonblank⟩
  have h1 : pyStrip "ignored\n2.5\n".toList = "ignored\n2.5".toList := by rfl
  simp only [get_command_output, h1]
  have h2 : (splitNl "ignored\n2.5".toList).getLastD [] = "2.5".toList := by rfl
  rw [h2]
  have h3 : pyFloatParse "2.5".toList
      = some ((1 : ℚ) * ((2 : ℚ) + 5 / 10 ^ 1) * 10 ^ (0 : ℤ)) := by rfl
  rw [h3]
  norm_num

/-- Witness for C4 at the spec's first scenario, via the general last-line
characterization: stdout `"ignored" ++ "\n" ++ "2.5" ++ "\n"`. -/
theorem C4_witness :
    ∃ quoted : Str, pyStrip quoted = pyStrip "2.5".toList
    ∧ get_command_output ("ignored".toList ++ '\n' :: ("2.5".toList ++ ['\n']))
      = (match pyFloatParse "2.5".toList with
        | some q => Except.ok q
        | none => Except.error (objectiveErrMsg quoted)) :=
  C4_objective_extraction.2.2 "ignored".toList "2.5".toList ['\n']
    (by decide) (by decide) (by decide)

end Argsearch
